import Mathlib

/-!
Verification development for the ChatterByte backend (two variants of an
Express/Gmail poller).  The definitions below are a shallow embedding of the
JavaScript source: the message extractor and inbox fetcher embedded from
`fetchEmails` (present identically in both `src/index.js` and the unnamed
variant-A file), and the variant-A in-memory account store embedded from the
route handlers that read and write the module-level `connectedAccounts` array.

Base64 decoding (`Buffer.from(data, "base64").toString("utf-8")`) is a call
into the Node standard library, so extraction is parameterised by an abstract
`decode : String → String`.
-/

namespace Chatterbyte

/-- One entry of `payload.headers`: `{ name, value }`. -/
structure Header where
  name : String
  value : String
deriving DecidableEq, Repr

/-- A MIME body slot: `body.data` may be absent. -/
structure Body where
  data : Option String
deriving DecidableEq, Repr

/-- One entry of `payload.parts`: `{ mimeType, body }`, where `body` itself
may be absent (the source guards with `part.body?.data`). -/
structure Part where
  mimeType : String
  body : Option Body
deriving DecidableEq, Repr

/-- The `msgDetail.data.payload` object.  Every field the source touches with
optional chaining (`payload?.headers`, `payload.parts`, `payload.body?.data`)
is optional here. -/
structure Payload where
  headers : Option (List Header) := none
  parts : Option (List Part) := none
  body : Option Body := none
deriving DecidableEq, Repr

/-- The provider message detail (`msgDetail.data`): payload and snippet may
both be absent (`msgDetail.data.payload`, `msgDetail.data.snippet || ""`). -/
structure MsgDetail where
  payload : Option Payload := none
  snippet : Option String := none
deriving DecidableEq, Repr

/-- The normalized record returned for each message by `fetchEmails`. -/
structure MessageRecord where
  subject : String
  «from» : String
  date : String
  snippet : String
  textPlain : String
  textHtml : String
deriving DecidableEq, Repr

/-- `part.body?.data`. -/
def partData (p : Part) : Option String :=
  p.body.bind Body.data

/-- `const getHeader = name => headers.find(h => h.name === name)?.value || ""`.
JavaScript `===` on strings is exact and case-sensitive; `|| ""` turns both a
missing header and a falsy (empty) value into `""`. -/
def getHeader (headers : List Header) (name : String) : String :=
  match headers.find? (fun h => h.name == name) with
  | some h => h.value
  | none => ""

/-- One iteration of the `for (const part of msgDetail.data.payload.parts)`
loop: each of the two `if` statements overwrites its accumulator component
only when the MIME type matches and `part.body?.data` is present. -/
def scanStep (decode : String → String) (acc : String × String) (p : Part) :
    String × String :=
  match partData p with
  | some d =>
    (if p.mimeType == "text/plain" then decode d else acc.1,
     if p.mimeType == "text/html" then decode d else acc.2)
  | none => acc

/-- The body-extraction block of `fetchEmails` for a present payload:
`if (payload.parts && payload.parts.length) { for ... } else if
(payload.body?.data) { textPlain = ... }`.  Returns `(textPlain, textHtml)`,
both initialised to `""`. -/
def extractBodies (decode : String → String) (payload : Payload) :
    String × String :=
  match payload.parts with
  | some parts =>
    if parts.length != 0 then
      parts.foldl (scanStep decode) ("", "")
    else
      match payload.body.bind Body.data with
      | some d => (decode d, "")
      | none => ("", "")
  | none =>
    match payload.body.bind Body.data with
    | some d => (decode d, "")
    | none => ("", "")

/-- The per-message extraction performed inside `fetchEmails`: headers are
`msgDetail.data.payload?.headers || []`, bodies come from `extractBodies`,
and the returned object is
`{ subject: getHeader("Subject") || "(No Subject)", from: getHeader("From"),
   date: getHeader("Date"), snippet: msgDetail.data.snippet || "",
   textPlain, textHtml }`. -/
def extract (decode : String → String) (m : MsgDetail) : MessageRecord :=
  let headers := (m.payload.bind Payload.headers).getD []
  let bodies :=
    match m.payload with
    | some payload => extractBodies decode payload
    | none => ("", "")
  let subject := getHeader headers "Subject"
  { subject := if subject == "" then "(No Subject)" else subject
    «from» := getHeader headers "From"
    date := getHeader headers "Date"
    snippet := m.snippet.getD ""
    textPlain := bodies.1
    textHtml := bodies.2 }

/-- Fold step for `lastDataOf`: a part with MIME type `mt` that carries body
data overwrites the accumulator; any other part leaves it alone. -/
def lastDataStep (mt : String) (acc : Option String) (p : Part) :
    Option String :=
  if p.mimeType == mt then
    match partData p with
    | some d => some d
    | none => acc
  else acc

/-- Specification-side view: the `data` of the last part in the list whose
MIME type is `mt` and whose body actually carries data (last write wins). -/
def lastDataOf (mt : String) (ps : List Part) : Option String :=
  ps.foldl (lastDataStep mt) none

/-- Fold step for `lastPartOf`. -/
def lastPartStep (mt : String) (acc : Option Part) (p : Part) : Option Part :=
  if p.mimeType == mt then some p else acc

/-- Specification-side view: the last part in the list whose MIME type is
`mt`, regardless of whether it carries body data. -/
def lastPartOf (mt : String) (ps : List Part) : Option Part :=
  ps.foldl (lastPartStep mt) none

/-- Message identifiers returned by `gmail.users.messages.list`. -/
abbrev MsgId := String

/-- Errors raised by provider calls (carried opaquely to the caller). -/
abbrev Err := String

/-- Denotation of `Promise.all(res.data.messages.map(async msg => ...))`:
each identifier's detail is fetched (`gmail.users.messages.get`) and run
through the extractor; results are joined positionally, and a rejected
detail fetch rejects the whole join with no partial list.  `getDetail` is
the provider oracle for `messages.get`. -/
def fetchDetails (decode : String → String)
    (getDetail : MsgId → Except Err MsgDetail) :
    List MsgId → Except Err (List MessageRecord)
  | [] => .ok []
  | id :: ids =>
    match getDetail id with
    | .error e => .error e
    | .ok d =>
      match fetchDetails decode getDetail ids with
      | .error e => .error e
      | .ok rs => .ok (extract decode d :: rs)

/-- `fetchEmails` after the list call: `if (!res.data.messages) return [];`
then the `Promise.all` join.  `listResult` is `res.data.messages`. -/
def fetchEmails (decode : String → String) (listResult : Option (List MsgId))
    (getDetail : MsgId → Except Err MsgDetail) :
    Except Err (List MessageRecord) :=
  match listResult with
  | none => .ok []
  | some ids => fetchDetails decode getDetail ids

/-- One completion event in the scheduling model of `Promise.all`: the fetch
for position `i` finishes and writes its record into slot `i` of the result
array, independent of when the other fetches finish. -/
def fillStep (ids : List MsgId) (f : MsgId → MessageRecord)
    (acc : List (Option MessageRecord)) (i : Nat) :
    List (Option MessageRecord) :=
  match ids[i]? with
  | some id => acc.set i (some (f id))
  | none => acc

/-- Scheduling model for the concurrent joins of `Promise.all`: the result
array has one slot per listed identifier, and the detail fetches complete in
an arbitrary `order` of positions, each writing its record into its own slot
when it completes. -/
def fillByIndex (ids : List MsgId) (f : MsgId → MessageRecord)
    (order : List Nat) : List (Option MessageRecord) :=
  order.foldl (fillStep ids f) (List.replicate ids.length none)

/-- The opaque OAuth credential bundle; the source never inspects it, only
passes it back to the provider client. -/
structure Tokens where
  raw : String
deriving DecidableEq, Repr

/-- One entry of the variant-A module-level array
`connectedAccounts = [{ email, tokens, messages }]`. -/
structure Account where
  email : String
  tokens : Tokens
  messages : List MessageRecord
deriving DecidableEq, Repr

/-- The OAuth-callback store update:
`if (!connectedAccounts.find(acc => acc.email === email))
   connectedAccounts.push({ email, tokens, messages });`. -/
def upsertIfAbsent (connectedAccounts : List Account) (email : String)
    (tokens : Tokens) (messages : List MessageRecord) : List Account :=
  match connectedAccounts.find? (fun acc => acc.email == email) with
  | some _ => connectedAccounts
  | none => connectedAccounts ++ [{ email, tokens, messages }]

/-- The DELETE handler's store update:
`connectedAccounts = connectedAccounts.filter(acc => acc.email !== emailToDelete)`. -/
def removeByEmail (connectedAccounts : List Account) (email : String) :
    List Account :=
  connectedAccounts.filter (fun acc => acc.email != email)

/-- One element of the GET `/api/emails` response: `{ email, messages }`. -/
structure EmailMessages where
  email : String
  messages : List MessageRecord
deriving DecidableEq, Repr

/-- The `for (const account of connectedAccounts)` loop of the GET
`/api/emails` handler: each stored account's tokens are handed to a fresh
client and `fetchEmails` is re-run (`fetch` is that whole provider
round-trip); the first failure aborts the loop (the handler's `catch`
answers 500 and the accumulated `updatedAccounts` is discarded). -/
def refreshLoop (fetch : Tokens → Except Err (List MessageRecord)) :
    List Account → Except Err (List EmailMessages)
  | [] => .ok []
  | account :: rest =>
    match fetch account.tokens with
    | .error e => .error e
    | .ok messages =>
      match refreshLoop fetch rest with
      | .error e => .error e
      | .ok updated => .ok ({ email := account.email, messages } :: updated)

/-- The whole GET `/api/emails` handler as a state transformer: it returns
the refreshed `{email, messages}` pairs and the store it leaves behind.  The
handler never assigns to `connectedAccounts`, so the store component is the
input store. -/
def refreshAndListAll (connectedAccounts : List Account)
    (fetch : Tokens → Except Err (List MessageRecord)) :
    Except Err (List EmailMessages) × List Account :=
  (refreshLoop fetch connectedAccounts, connectedAccounts)

/-- Store states reachable from the empty store by the variant-A store
operations (the OAuth callback's upsert, the DELETE handler's removal, and
the GET handler, which only reads). -/
inductive Reachable : List Account → Prop
  | empty : Reachable []
  | upsert (s : List Account) (email : String) (tokens : Tokens)
      (messages : List MessageRecord) : Reachable s →
      Reachable (upsertIfAbsent s email tokens messages)
  | remove (s : List Account) (email : String) : Reachable s →
      Reachable (removeByEmail s email)
  | refresh (s : List Account) (fetch : Tokens → Except Err (List MessageRecord)) :
      Reachable s → Reachable (refreshAndListAll s fetch).2

/-! ### Concrete sample inputs used by the witness theorems -/

def partPlainA : Part := { mimeType := "text/plain", body := some { data := some "AA" } }

def partPlainB : Part := { mimeType := "text/plain", body := some { data := some "BB" } }

def partHtmlC : Part := { mimeType := "text/html", body := some { data := some "CC" } }

def partPlainNoData : Part := { mimeType := "text/plain", body := some { data := none } }

/-- A multipart detail with two `text/plain` parts and one `text/html` part. -/
def detailTwoPlain : MsgDetail :=
  { payload := some { parts := some [partPlainA, partHtmlC, partPlainB] } }

/-- A multipart detail whose last `text/plain` part carries no body data. -/
def detailDataless : MsgDetail :=
  { payload := some { parts := some [partPlainA, partPlainNoData] } }

/-- A detail with no parts and a top-level body. -/
def detailTopLevel : MsgDetail :=
  { payload := some { body := some { data := some "TT" } } }

/-- A detail whose headers carry no `Subject` entry. -/
def detailNoSubject : MsgDetail :=
  { payload := some { headers := some [{ name := "From", value := "x@y" }] } }

/-- A provider oracle that rejects the identifier `"bad"`. -/
def sampleGetDetail : MsgId → Except Err MsgDetail := fun i =>
  if i == "bad" then .error "boom" else .ok {}

def accA : Account := { email := "a@x", tokens := { raw := "t1" }, messages := [] }

/-! ### Lemmas about the part scan -/

lemma lastDataStep_eq (mt : String) (a : Option String) (p : Part) :
    lastDataStep mt a p =
      match lastDataStep mt none p with
      | some d => some d
      | none => a := by
  unfold lastDataStep
  by_cases h : p.mimeType == mt
  · simp [h]; cases partData p <;> simp
  · simp [h]

lemma foldl_lastDataStep (mt : String) (ps : List Part) :
    ∀ a : Option String,
      ps.foldl (lastDataStep mt) a =
        match lastDataOf mt ps with
        | some d => some d
        | none => a := by
  induction ps with
  | nil => intro a; simp [lastDataOf]
  | cons p ps ih =>
    intro a
    have hcons : lastDataOf mt (p :: ps) =
        match lastDataOf mt ps with
        | some d => some d
        | none => lastDataStep mt none p := by
      unfold lastDataOf
      rw [List.foldl_cons, ih (lastDataStep mt none p)]
      simp only [lastDataOf]
    rw [List.foldl_cons, ih (lastDataStep mt a p), hcons]
    cases lastDataOf mt ps <;> simp [lastDataStep_eq mt a p]

lemma lastDataOf_cons (mt : String) (p : Part) (ps : List Part) :
    lastDataOf mt (p :: ps) =
      match lastDataOf mt ps with
      | some d => some d
      | none => lastDataStep mt none p := by
  unfold lastDataOf
  rw [List.foldl_cons, foldl_lastDataStep]
  simp only [lastDataOf]

lemma lastPartStep_eq (mt : String) (a : Option Part) (p : Part) :
    lastPartStep mt a p =
      match lastPartStep mt none p with
      | some q => some q
      | none => a := by
  unfold lastPartStep
  by_cases h : p.mimeType == mt <;> simp [h]

lemma foldl_lastPartStep (mt : String) (ps : List Part) :
    ∀ a : Option Part,
      ps.foldl (lastPartStep mt) a =
        match lastPartOf mt ps with
        | some q => some q
        | none => a := by
  induction ps with
  | nil => intro a; simp [lastPartOf]
  | cons p ps ih =>
    intro a
    have hcons : lastPartOf mt (p :: ps) =
        match lastPartOf mt ps with
        | some q => some q
        | none => lastPartStep mt none p := by
      unfold lastPartOf
      rw [List.foldl_cons, ih (lastPartStep mt none p)]
      simp only [lastPartOf]
    rw [List.foldl_cons, ih (lastPartStep mt a p), hcons]
    cases lastPartOf mt ps <;> simp [lastPartStep_eq mt a p]

lemma lastPartOf_cons (mt : String) (p : Part) (ps : List Part) :
    lastPartOf mt (p :: ps) =
      match lastPartOf mt ps with
      | some q => some q
      | none => lastPartStep mt none p := by
  unfold lastPartOf
  rw [List.foldl_cons, foldl_lastPartStep]
  simp only [lastPartOf]

lemma scanStep_fst (decode : String → String) (acc : String × String)
    (p : Part) :
    (scanStep decode acc p).1 =
      match lastDataStep "text/plain" none p with
      | some d => decode d
      | none => acc.1 := by
  unfold scanStep lastDataStep
  cases hd : partData p <;>
    by_cases h : p.mimeType == "text/plain" <;> simp [h]

lemma scanStep_snd (decode : String → String) (acc : String × String)
    (p : Part) :
    (scanStep decode acc p).2 =
      match lastDataStep "text/html" none p with
      | some d => decode d
      | none => acc.2 := by
  unfold scanStep lastDataStep
  cases hd : partData p <;>
    by_cases h : p.mimeType == "text/html" <;> simp [h]

/-- The part scan is a pair of independent last-write-wins folds: after
scanning, `textPlain` holds the decoded data of the last `text/plain` part
that carried data (or the initial value), and likewise `textHtml` for
`text/html`. -/
lemma foldl_scanStep (decode : String → String) (ps : List Part) :
    ∀ acc : String × String,
      ps.foldl (scanStep decode) acc =
        (match lastDataOf "text/plain" ps with
         | some d => decode d
         | none => acc.1,
         match lastDataOf "text/html" ps with
         | some d => decode d
         | none => acc.2) := by
  induction ps with
  | nil => intro acc; simp [lastDataOf]
  | cons p ps ih =>
    intro acc
    rw [List.foldl_cons, ih (scanStep decode acc p), lastDataOf_cons,
      lastDataOf_cons]
    cases lastDataOf "text/plain" ps <;> cases lastDataOf "text/html" ps <;>
      simp [scanStep_fst, scanStep_snd]

/-- Under the all-parts-carry-data hypothesis, the last part that carries
data of a given MIME type is simply the last part of that MIME type. -/
lemma lastDataOf_eq_map (mt : String) (ps : List Part)
    (h : ∀ p ∈ ps, (partData p).isSome) :
    lastDataOf mt ps = (lastPartOf mt ps).map fun p => (partData p).getD "" := by
  induction ps with
  | nil => simp [lastDataOf, lastPartOf]
  | cons p ps ih =>
    rw [lastDataOf_cons, lastPartOf_cons]
    have hih := ih fun q hq => h q (List.mem_cons_of_mem p hq)
    cases hq : lastPartOf mt ps with
    | some q => rw [hih, hq]; rfl
    | none =>
      rw [hih, hq]
      have hp := h p (List.mem_cons_self p ps)
      obtain ⟨d, hd⟩ := Option.isSome_iff_exists.mp hp
      unfold lastDataStep lastPartStep
      by_cases hmt : p.mimeType == mt <;> simp [hmt, hd]

/-! ### Lemmas about the concurrent join -/

lemma foldl_fillStep_length (ids : List MsgId) (f : MsgId → MessageRecord) :
    ∀ (order : List Nat) (acc : List (Option MessageRecord)),
      (order.foldl (fillStep ids f) acc).length = acc.length := by
  intro order
  induction order with
  | nil => intro acc; rfl
  | cons i order ih =>
    intro acc
    rw [List.foldl_cons, ih]
    unfold fillStep
    cases ids[i]? <;> simp

lemma foldl_fillStep_getElem? (ids : List MsgId) (f : MsgId → MessageRecord) :
    ∀ (order : List Nat) (acc : List (Option MessageRecord)),
      acc.length = ids.length → ∀ k : Nat,
      (order.foldl (fillStep ids f) acc)[k]? =
        if k ∈ order ∧ k < ids.length then
          ids[k]?.map fun id => some (f id)
        else acc[k]? := by
  intro order
  induction order with
  | nil => intro acc _ k; simp
  | cons i order ih =>
    intro acc hlen k
    have hlen' : (fillStep ids f acc i).length = ids.length := by
      unfold fillStep; cases ids[i]? <;> simp [hlen]
    rw [List.foldl_cons, ih (fillStep ids f acc i) hlen' k]
    by_cases hki : k = i
    · subst hki
      by_cases hk : k < ids.length
      · obtain ⟨id, hid⟩ : ∃ id, ids[k]? = some id :=
          ⟨_, List.getElem?_eq_getElem hk⟩
        have hfill : (fillStep ids f acc k)[k]? = some (some (f id)) := by
          unfold fillStep
          rw [hid]
          simp [List.getElem?_set, hlen, hk]
        by_cases hmem : k ∈ order <;>
          simp [hmem, hk, List.mem_cons, hfill, hid]
      · have hnone : ids[k]? = none := List.getElem?_eq_none (le_of_not_lt hk)
        have hfill : fillStep ids f acc k = acc := by
          unfold fillStep; rw [hnone]
        simp [hk, hfill]
    · have hfill : (fillStep ids f acc i)[k]? = acc[k]? := by
        unfold fillStep
        cases ids[i]? with
        | none => rfl
        | some id => exact List.getElem?_set_ne (fun hik => hki hik.symm)
      rw [hfill]
      by_cases hmem : k ∈ order <;> simp [hmem, hki, List.mem_cons]

/-- Filling the result array slot-by-slot in any completion order that
covers every position yields exactly the positional map of the identifier
list. -/
lemma fillByIndex_perm (ids : List MsgId) (f : MsgId → MessageRecord)
    (order : List Nat) (h : order.Perm (List.range ids.length)) :
    fillByIndex ids f order = ids.map fun id => some (f id) := by
  apply List.ext_getElem?
  intro k
  unfold fillByIndex
  rw [foldl_fillStep_getElem? ids f order (List.replicate ids.length none)
    (by simp) k]
  have hmem : k ∈ order ↔ k < ids.length := by
    rw [h.mem_iff, List.mem_range]
  by_cases hk : k < ids.length
  · simp [hmem.mpr hk, hk, List.getElem?_map]
  · have h1 : ids[k]? = none := List.getElem?_eq_none (le_of_not_lt hk)
    simp [hk, hmem, List.getElem?_replicate, h1, List.getElem?_map]

/-- When every detail fetch succeeds, the join returns the extracted records
in identifier-list order. -/
lemma fetchDetails_ok (decode : String → String) (details : MsgId → MsgDetail) :
    ∀ ids : List MsgId,
      fetchDetails decode (fun i => .ok (details i)) ids =
        .ok (ids.map fun i => extract decode (details i)) := by
  intro ids
  induction ids with
  | nil => rfl
  | cons id ids ih => simp [fetchDetails, ih]

/-- When every fetch before `bad` succeeds and the fetch for `bad` rejects
with `e`, the whole join rejects with `e`. -/
lemma fetchDetails_first_error (decode : String → String)
    (getDetail : MsgId → Except Err MsgDetail) (e : Err) :
    ∀ (pre : List MsgId) (bad : MsgId) (post : List MsgId),
      (∀ id ∈ pre, ∃ d, getDetail id = .ok d) → getDetail bad = .error e →
      fetchDetails decode getDetail (pre ++ bad :: post) = .error e := by
  intro pre
  induction pre with
  | nil => intro bad post _ hbad; simp [fetchDetails, hbad]
  | cons id pre ih =>
    intro bad post hpre hbad
    obtain ⟨d, hd⟩ := hpre id (List.mem_cons_self id pre)
    have hrest := ih bad post (fun j hj => hpre j (List.mem_cons_of_mem _ hj))
      hbad
    simp [fetchDetails, hd, hrest]

/-- Unfolding of `extract` for a present payload. -/
lemma extract_bodies_eq (decode : String → String) (m : MsgDetail)
    (payload : Payload) (hm : m.payload = some payload) :
    (extract decode m).textPlain = (extractBodies decode payload).1
    ∧ (extract decode m).textHtml = (extractBodies decode payload).2 := by
  constructor <;> simp [extract, hm]

/-- Unfolding of `extractBodies` for a non-empty parts list. -/
lemma extractBodies_parts (decode : String → String) (payload : Payload)
    (ps : List Part) (hp : payload.parts = some ps) (hne : ps ≠ []) :
    extractBodies decode payload =
      (match lastDataOf "text/plain" ps with
       | some d => decode d
       | none => "",
       match lastDataOf "text/html" ps with
       | some d => decode d
       | none => "") := by
  have hlen : (ps.length != 0) = true := by simpa using hne
  unfold extractBodies
  rw [hp]
  dsimp only
  rw [if_pos hlen, foldl_scanStep]

/-- C1: for a payload with a non-empty parts list (each part carrying body
data), the single scan lets the last `text/plain` part determine `textPlain`
and, independently, the last `text/html` part determine `textHtml`; with two
`text/plain` entries the extracted `textPlain` is therefore the decoded
content of the last one. -/
theorem extract_last_part_wins (decode : String → String) (m : MsgDetail)
    (payload : Payload) (ps : List Part) (hm : m.payload = some payload)
    (hp : payload.parts = some ps) (hne : ps ≠ [])
    (hdata : ∀ p ∈ ps, (partData p).isSome) :
    (extract decode m).textPlain =
      (match lastPartOf "text/plain" ps with
       | some p => decode ((partData p).getD "")
       | none => "")
    ∧ (extract decode m).textHtml =
      (match lastPartOf "text/html" ps with
       | some p => decode ((partData p).getD "")
       | none => "") := by
  obtain ⟨h1, h2⟩ := extract_bodies_eq decode m payload hm
  rw [h1, h2, extractBodies_parts decode payload ps hp hne,
    lastDataOf_eq_map "text/plain" ps hdata,
    lastDataOf_eq_map "text/html" ps hdata]
  cases lastPartOf "text/plain" ps <;> cases lastPartOf "text/html" ps <;>
    simp

/-- C10: a part whose MIME type matches but whose body carries no data is
skipped by the scan — it neither contributes nor overwrites — so the winning
part for each MIME type is the last one that actually carries body data. -/
theorem extract_skips_dataless_parts (decode : String → String)
    (m : MsgDetail) (payload : Payload) (ps : List Part)
    (hm : m.payload = some payload) (hp : payload.parts = some ps)
    (hne : ps ≠ []) :
    (extract decode m).textPlain =
      (match lastDataOf "text/plain" ps with
       | some d => decode d
       | none => "")
    ∧ (extract decode m).textHtml =
      (match lastDataOf "text/html" ps with
       | some d => decode d
       | none => "")
    ∧ (∀ (acc : String × String) (p : Part), partData p = none →
        scanStep decode acc p = acc) := by
  obtain ⟨h1, h2⟩ := extract_bodies_eq decode m payload hm
  rw [h1, h2, extractBodies_parts decode payload ps hp hne]
  refine ⟨rfl, rfl, ?_⟩
  intro acc p hnone
  unfold scanStep
  rw [hnone]

/-- C2: for a payload with no parts, `textHtml` is empty and `textPlain` is
the decoded top-level payload body when present (no MIME-type check at this
level), empty otherwise. -/
theorem extract_no_parts (decode : String → String) (m : MsgDetail)
    (payload : Payload) (hm : m.payload = some payload)
    (hp : payload.parts = none ∨ payload.parts = some []) :
    (extract decode m).textHtml = ""
    ∧ (extract decode m).textPlain =
      (match payload.body.bind Body.data with
       | some d => decode d
       | none => "") := by
  obtain ⟨h1, h2⟩ := extract_bodies_eq decode m payload hm
  rw [h1, h2]
  unfold extractBodies
  cases hp with
  | inl h =>
    rw [h]
    cases payload.body.bind Body.data <;> simp
  | inr h =>
    rw [h]
    cases payload.body.bind Body.data <;> simp

/-- C3: header lookup is a case-sensitive exact match on the header name
(any name difference, including a difference only of letter case, makes the
entry not match); the first matching header wins regardless of later
entries; an absent header yields the empty string; and the extracted subject
is the literal `"(No Subject)"` whenever the `Subject` lookup comes back
empty — i.e. when the header is absent or its value is empty. -/
theorem header_lookup_spec (decode : String → String) :
    (∀ (hs : List Header) (name : String) (h : Header), h.name = name →
      getHeader (h :: hs) name = h.value)
    ∧ (∀ (hs : List Header) (name : String) (h : Header), h.name ≠ name →
      getHeader (h :: hs) name = getHeader hs name)
    ∧ (∀ (hs : List Header) (name : String), (∀ h ∈ hs, h.name ≠ name) →
      getHeader hs name = "")
    ∧ (∀ m : MsgDetail,
      getHeader ((m.payload.bind Payload.headers).getD []) "Subject" = "" →
      (extract decode m).subject = "(No Subject)") := by
  refine ⟨?_, ?_, ?_, ?_⟩
  · intro hs name h hh
    simp [getHeader, List.find?_cons, hh]
  · intro hs name h hh
    simp [getHeader, List.find?_cons, hh]
  · intro hs name hall
    have hnone : hs.find? (fun h => h.name == name) = none :=
      List.find?_eq_none.mpr fun h hh => by simpa using hall h hh
    simp [getHeader, hnone]
  · intro m hsub
    simp [extract, hsub]

/-- C4: with every detail fetch succeeding, the inbox fetch returns exactly
the extraction of the i-th listed identifier's detail at position i; and in
the scheduling model the result array is the same positional map for every
completion order of the concurrent fetches. -/
theorem fetch_positional_join (decode : String → String) (ids : List MsgId)
    (details : MsgId → MsgDetail) (order : List Nat)
    (h : order.Perm (List.range ids.length)) :
    fetchEmails decode (some ids) (fun i => .ok (details i)) =
      .ok (ids.map fun i => extract decode (details i))
    ∧ fillByIndex ids (fun i => extract decode (details i)) order =
      ids.map fun i => some (extract decode (details i)) := by
  constructor
  · simpa [fetchEmails] using fetchDetails_ok decode details ids
  · exact fillByIndex_perm ids _ order h

/-- C5: when the detail fetch of one listed identifier rejects (and those
before it succeed), the whole inbox fetch rejects with that error and no
partial record list is returned. -/
theorem fetch_first_rejection (decode : String → String)
    (getDetail : MsgId → Except Err MsgDetail) (pre post : List MsgId)
    (bad : MsgId) (e : Err)
    (hpre : ∀ id ∈ pre, ∃ d, getDetail id = .ok d)
    (hbad : getDetail bad = .error e) :
    fetchEmails decode (some (pre ++ bad :: post)) getDetail = .error e
    ∧ ∀ rs : List MessageRecord,
        fetchEmails decode (some (pre ++ bad :: post)) getDetail ≠ .ok rs := by
  have h := fetchDetails_first_error decode getDetail e pre bad post hpre hbad
  refine ⟨h, ?_⟩
  intro rs hok
  rw [show fetchEmails decode (some (pre ++ bad :: post)) getDetail =
    fetchDetails decode getDetail (pre ++ bad :: post) from rfl, h] at hok
  exact Except.noConfusion hok

/-- `upsertIfAbsent` is a no-op when an account with this email exists. -/
lemma upsert_mem (s : List Account) (email : String) (tokens : Tokens)
    (messages : List MessageRecord) (h : ∃ a ∈ s, a.email = email) :
    upsertIfAbsent s email tokens messages = s := by
  obtain ⟨a, ha, hae⟩ := h
  unfold upsertIfAbsent
  cases hf : s.find? (fun acc => acc.email == email) with
  | some _ => rfl
  | none =>
    exact absurd (by simpa using List.find?_eq_none.mp hf a ha) (by simp [hae])

/-- `upsertIfAbsent` appends at the end when no account has this email. -/
lemma upsert_not_mem (s : List Account) (email : String) (tokens : Tokens)
    (messages : List MessageRecord) (h : ∀ a ∈ s, a.email ≠ email) :
    upsertIfAbsent s email tokens messages =
      s ++ [{ email := email, tokens := tokens, messages := messages }] := by
  unfold upsertIfAbsent
  have hnone : s.find? (fun acc => acc.email == email) = none :=
    List.find?_eq_none.mpr fun a ha => by simpa using h a ha
  rw [hnone]

/-- C6: the OAuth-callback upsert is a no-op when an account with the email
already exists (tokens untouched, no duplicate appended), appends the new
account at the end otherwise, and a repeat call with the same email never
changes the store again. -/
theorem upsertIfAbsent_spec (s : List Account) (email : String)
    (tokens tokens2 : Tokens) (messages messages2 : List MessageRecord) :
    ((∃ a ∈ s, a.email = email) → upsertIfAbsent s email tokens messages = s)
    ∧ ((∀ a ∈ s, a.email ≠ email) →
      upsertIfAbsent s email tokens messages =
        s ++ [{ email := email, tokens := tokens, messages := messages }])
    ∧ upsertIfAbsent (upsertIfAbsent s email tokens messages) email tokens2
        messages2 = upsertIfAbsent s email tokens messages := by
  refine ⟨upsert_mem s email tokens messages,
    upsert_not_mem s email tokens messages, ?_⟩
  by_cases hex : ∃ a ∈ s, a.email = email
  · rw [upsert_mem s email tokens messages hex,
      upsert_mem s email tokens2 messages2 hex]
  · push_neg at hex
    rw [upsert_not_mem s email tokens messages hex]
    exact upsert_mem _ email tokens2 messages2
      ⟨{ email := email, tokens := tokens, messages := messages },
        by simp, rfl⟩

/-- C7: every store state reachable from the empty store by the variant-A
operations has at most one Connected Account per email. -/
theorem reachable_unique_email (s : List Account) (h : Reachable s) :
    (s.map Account.email).Nodup := by
  induction h with
  | empty => simp
  | upsert s email tokens messages _ ih =>
    by_cases hex : ∃ a ∈ s, a.email = email
    · rw [upsert_mem s email tokens messages hex]
      exact ih
    · push_neg at hex
      rw [upsert_not_mem s email tokens messages hex, List.map_append]
      refine List.Nodup.append ih (by simp) ?_
      intro x hx1 hx2
      simp only [List.map_cons, List.map_nil, List.mem_singleton] at hx2
      obtain ⟨a, ha, hae⟩ := List.mem_map.mp hx1
      exact hex a ha (hae.trans hx2)
  | remove s email _ ih =>
    have hsub : List.Sublist (removeByEmail s email) s := List.filter_sublist s
    exact List.Nodup.sublist (hsub.map Account.email) ih
  | refresh s fetch _ ih => exact ih

/-- C8: after removing an email the store contains no account with it,
removal is idempotent, and removing an absent email is a no-op (and in
particular raises no error — the operation is total). -/
theorem removeByEmail_spec (s : List Account) (email : String) :
    email ∉ (removeByEmail s email).map Account.email
    ∧ removeByEmail (removeByEmail s email) email = removeByEmail s email
    ∧ ((∀ a ∈ s, a.email ≠ email) → removeByEmail s email = s) := by
  refine ⟨?_, ?_, ?_⟩
  · intro hmem
    obtain ⟨a, ha, hae⟩ := List.mem_map.mp hmem
    have := (List.mem_filter.mp ha).2
    simp [hae] at this
  · unfold removeByEmail
    rw [List.filter_filter]
    simp
  · intro hall
    apply List.filter_eq_self.mpr
    intro a ha
    simpa using hall a ha

/-- C9: the GET `/api/emails` handler returns freshly fetched
`{email, messages}` pairs for every stored account while leaving the store —
and in particular every stored account's cached `messages` field — exactly
as it was. -/
theorem refreshAndListAll_frame (s : List Account)
    (fetch : Tokens → Except Err (List MessageRecord)) :
    (refreshAndListAll s fetch).2 = s
    ∧ (refreshAndListAll s fetch).2.map Account.messages =
      s.map Account.messages
    ∧ ∀ f : Tokens → List MessageRecord, (∀ t, fetch t = .ok (f t)) →
      (refreshAndListAll s fetch).1 =
        .ok (s.map fun a => { email := a.email, messages := f a.tokens }) := by
  refine ⟨rfl, rfl, ?_⟩
  intro f hf
  show refreshLoop fetch s = _
  induction s with
  | nil => rfl
  | cons a s ih => simp [refreshLoop, hf a.tokens, ih]

/-! ### Witnesses: each claim theorem applied at a concrete input -/

/-- Witness for `extract_last_part_wins` on a detail with two `text/plain`
parts around a `text/html` part: the last `text/plain` wins. -/
theorem extract_last_part_wins_witness :
    (extract id detailTwoPlain).textPlain = "BB"
    ∧ (extract id detailTwoPlain).textHtml = "CC" := by
  have h := extract_last_part_wins id detailTwoPlain
    { parts := some [partPlainA, partHtmlC, partPlainB] }
    [partPlainA, partHtmlC, partPlainB] rfl rfl (by decide) (by decide)
  exact ⟨h.1.trans (by rfl), h.2.trans (by rfl)⟩

/-- Witness for `extract_skips_dataless_parts`: the dataless trailing
`text/plain` part does not overwrite the earlier one. -/
theorem extract_skips_dataless_parts_witness :
    (extract id detailDataless).textPlain = "AA"
    ∧ scanStep id ("x", "y") partPlainNoData = ("x", "y") := by
  have h := extract_skips_dataless_parts id detailDataless
    { parts := some [partPlainA, partPlainNoData] }
    [partPlainA, partPlainNoData] rfl rfl (by decide)
  exact ⟨h.1.trans (by rfl), h.2.2 ("x", "y") partPlainNoData rfl⟩

/-- Witness for `extract_no_parts`: top-level body decoded into `textPlain`
only. -/
theorem extract_no_parts_witness :
    (extract id detailTopLevel).textHtml = ""
    ∧ (extract id detailTopLevel).textPlain = "TT" := by
  have h := extract_no_parts id detailTopLevel
    { body := some { data := some "TT" } } rfl (Or.inl rfl)
  exact ⟨h.1, h.2.trans (by rfl)⟩

/-- Witness for `header_lookup_spec`: first match wins, lookup is
case-sensitive, and a detail without a `Subject` header extracts
`"(No Subject)"`. -/
theorem header_lookup_spec_witness :
    getHeader [{ name := "From", value := "x@y" }, { name := "From", value := "z" }]
      "From" = "x@y"
    ∧ getHeader [{ name := "subject", value := "s" }] "Subject" = ""
    ∧ (extract id detailNoSubject).subject = "(No Subject)" := by
  have h := header_lookup_spec id
  exact ⟨h.1 [{ name := "From", value := "z" }] "From"
      { name := "From", value := "x@y" } rfl,
    h.2.2.1 [{ name := "subject", value := "s" }] "Subject" (by decide),
    h.2.2.2 detailNoSubject (by rfl)⟩

/-- Witness for `fetch_positional_join`: three identifiers completing in the
order 2, 0, 1 still fill the result array positionally. -/
theorem fetch_positional_join_witness :
    fetchEmails id (some ["a", "b", "c"]) (fun i => .ok { snippet := some i }) =
      .ok (["a", "b", "c"].map fun i => extract id { snippet := some i })
    ∧ fillByIndex ["a", "b", "c"] (fun i => extract id { snippet := some i })
        [2, 0, 1] =
      ["a", "b", "c"].map fun i => some (extract id { snippet := some i }) :=
  fetch_positional_join id ["a", "b", "c"] (fun i => { snippet := some i })
    [2, 0, 1] (by decide)

/-- Witness for `fetch_first_rejection`: one rejecting detail fetch rejects
the whole inbox fetch. -/
theorem fetch_first_rejection_witness :
    fetchEmails id (some (["a"] ++ "bad" :: ["c"])) sampleGetDetail =
      .error "boom" := by
  have h := fetch_first_rejection id sampleGetDetail ["a"] ["c"] "bad" "boom"
    (by
      intro i hi
      simp only [List.mem_singleton] at hi
      subst hi
      exact ⟨{}, rfl⟩)
    rfl
  exact h.1

/-- Witness for `upsertIfAbsent_spec`: a repeat login with fresh tokens does
not touch the stored account, and a first login appends it. -/
theorem upsertIfAbsent_spec_witness :
    upsertIfAbsent [accA] "a@x" { raw := "t2" } [] = [accA]
    ∧ upsertIfAbsent [] "a@x" { raw := "t1" } [] = [accA] := by
  have h := upsertIfAbsent_spec [accA] "a@x" { raw := "t2" } { raw := "t2" } [] []
  have h2 := upsertIfAbsent_spec [] "a@x" { raw := "t1" } { raw := "t1" } [] []
  exact ⟨h.1 ⟨accA, by simp, rfl⟩, (h2.2.1 (by simp)).trans (by rfl)⟩

/-- Witness for `reachable_unique_email`: a store built by two upserts has
pairwise-distinct emails. -/
theorem reachable_unique_email_witness :
    ((upsertIfAbsent (upsertIfAbsent [] "a@x" { raw := "t1" } []) "b@y"
        { raw := "t2" } []).map Account.email).Nodup :=
  reachable_unique_email _
    (Reachable.upsert _ "b@y" _ _ (Reachable.upsert _ "a@x" _ _ Reachable.empty))

/-- Witness for `removeByEmail_spec`: the removed email is gone, and
removing an absent email is a no-op. -/
theorem removeByEmail_spec_witness :
    "a@x" ∉ (removeByEmail [accA] "a@x").map Account.email
    ∧ removeByEmail [accA] "b@y" = [accA] := by
  have h := removeByEmail_spec [accA] "a@x"
  have h2 := removeByEmail_spec [accA] "b@y"
  exact ⟨h.1, h2.2.2 (by decide)⟩

/-- Witness for `refreshAndListAll_frame`: refreshing one stored account
returns its pair and leaves the store untouched. -/
theorem refreshAndListAll_frame_witness :
    (refreshAndListAll [accA] fun _ => .ok []).2 = [accA]
    ∧ (refreshAndListAll [accA] fun _ => .ok []).1 =
      .ok [{ email := "a@x", messages := [] }] := by
  have h := refreshAndListAll_frame [accA] fun _ => .ok []
  exact ⟨h.1, (h.2.2 (fun _ => []) fun _ => rfl).trans (by rfl)⟩

end Chatterbyte
